import Mathlib

set_option linter.unusedSectionVars false
set_option linter.unnecessarySeqFocus false

/-!
Shallow embedding of jambolo/Cache:
- `Cache` : the generic write-back cache of `include/Cache/Cache.h`
  (synchronous build, i.e. without `FEATURE_ASYNCHRONOUS`).
- `CacheAsync` : the additional / changed operations of the
  `FEATURE_ASYNCHRONOUS` build of the same header (prefetch, the prefetch
  overload of `insert`, and `get`/`synchronize`, which are mutually
  recursive there and therefore modelled with explicit fuel).
- `SynchronousCache` : the bounded aging cache of
  `include/Cache/SynchronousCache.h`.

The backing store ("policy", the pure virtual methods of the C++ classes)
is modelled as a structure of functions; calls with side effects on the
store (`write`, `readAsync`, `waitForAsyncRead`, `Flush`) are recorded in
an event list returned alongside the new cache state.
-/

/-- Models `CacheEntry` of Cache.h: value, locked, dirty, and (async build only)
prefetched.  The synchronous build never sets `prefetched`; it corresponds
to the value-initialized (false) state of the field there. -/
structure CacheEntry (V : Type) where
  value : V
  locked : Bool
  dirty : Bool
  prefetched : Bool
deriving Repr, DecidableEq

/-- Events recording the calls the cache makes into the backing store
(the pure virtual methods of the C++ class). -/
inductive Ev (K V : Type) where
  | read : K → Ev K V
  | write : K → V → Ev K V
  | readAsync : K → Ev K V
  | waitForAsyncRead : K → Ev K V
deriving Repr, DecidableEq

/-- The backing-store policy: the pure virtual methods `full`, `read` and
`condemn` of the C++ `Cache` class.  `full` and `condemn` may inspect the
container (the C++ subclass reaches it through `container()`); `condemn`
returns the key of the victim entry (an iterator into the map is
identified by the key it points at). -/
structure Policy (K V : Type) where
  full : List (K × CacheEntry V) → K → Bool
  read : K → V
  condemn : List (K × CacheEntry V) → K → K

namespace Cache

variable {K V : Type} [LinearOrder K] [DecidableEq K]

/-- The underlying `std::map`: an association list kept in ascending key
order. -/
abbrev Container (K V : Type) := List (K × CacheEntry V)

/-- Models `container_.find(key)`. -/
def findEntry : Container K V → K → Option (CacheEntry V)
  | [], _ => none
  | (k1, e) :: t, k => if k = k1 then some e else findEntry t k

/-- Replace the entry at `key` (mutation through an iterator / reference
keeps the node in place). -/
def setEntry : Container K V → K → CacheEntry V → Container K V
  | [], _, _ => []
  | (k1, e1) :: t, k, e => if k = k1 then (k1, e) :: t else (k1, e1) :: setEntry t k e

/-- Models `container_.erase(p)` for the node holding `key`. -/
def eraseKey : Container K V → K → Container K V
  | [], _ => []
  | (k1, e1) :: t, k => if k = k1 then t else (k1, e1) :: eraseKey t k

/-- Models `container_.insert({key, entry})`: inserts at the sorted position,
and does nothing when the key is already present (std::map semantics). -/
def insertSorted : Container K V → K → CacheEntry V → Container K V
  | [], k, e => [(k, e)]
  | (k1, e1) :: t, k, e =>
      if k < k1 then (k, e) :: (k1, e1) :: t
      else if k = k1 then (k1, e1) :: t
      else (k1, e1) :: insertSorted t k e

/-- The private `flush(iterator)` body applied to one node: if the entry
is dirty, write it out and clear the dirty flag. -/
def flushEntryPair (k : K) (e : CacheEntry V) : CacheEntry V × List (Ev K V) :=
  if e.dirty then ({ e with dirty := false }, [Ev.write k e.value]) else (e, [])

/-- Models `flush(key)`: find the node and flush it; no-op when absent. -/
def flushKey (s : Container K V) (k : K) : Container K V × List (Ev K V) :=
  match findEntry s k with
  | none => (s, [])
  | some e =>
      let fe := flushEntryPair k e
      (setEntry s k fe.1, fe.2)

/-- Models `flush()`: flush every node in container order. -/
def flushAll : Container K V → Container K V × List (Ev K V)
  | [] => ([], [])
  | (k, e) :: t =>
      let fe := flushEntryPair k e
      let ft := flushAll t
      ((k, fe.1) :: ft.1, fe.2 ++ ft.2)

/-- Models `purge(key)`: if present, flush (write-back when dirty) then erase. -/
def purgeKey (s : Container K V) (k : K) : Container K V × List (Ev K V)  :=
  match findEntry s k with
  | none => (s, [])
  | some e =>
      let fe := flushEntryPair k e
      (eraseKey s k, fe.2)

/-- Models `clear()`: purge every node (each node is flushed if dirty, then
removed; the result is the empty container).  The C++ loop increments the
iterator it has just erased; the model renders the documented intent of
purging every entry. -/
def clear : Container K V → Container K V × List (Ev K V)
  | [] => ([], [])
  | (k, e) :: t =>
      let fe := flushEntryPair k e
      let ct := clear t
      (ct.1, fe.2 ++ ct.2)

/-- Models `invalidate(key)`: absent key is a no-op; a clean entry is erased
without any write; a dirty entry trips `assert(!p->second.dirty)`,
modelled as the `none` outcome.  No store call is ever made. -/
def invalidate (s : Container K V) (k : K) :
    Option (Container K V) × List (Ev K V) :=
  match findEntry s k with
  | none => (some s, [])
  | some e => if e.dirty then (none, []) else (some (eraseKey s k), [])

/-- The private synchronous `insert(key, value)`: make room by purging the
condemned victim when the policy reports the cache full, then insert
`{ value, false, false }` (the remaining `prefetched` member is
value-initialized to false). -/
def insert (pol : Policy K V) (s : Container K V) (k : K) (v : V) :
    Container K V × List (Ev K V) :=
  let sp := if pol.full s k then purgeKey s (pol.condemn s k) else (s, [])
  (insertSorted sp.1 k ⟨v, false, false, false⟩, sp.2)

/-- The private `get(key)` of the synchronous build: on a hit return the
entry unchanged; on a miss call `read` and insert the result. -/
def get (pol : Policy K V) (s : Container K V) (k : K) :
    Container K V × List (Ev K V) × CacheEntry V :=
  match findEntry s k with
  | some e => (s, [], e)
  | none =>
      let v := pol.read k
      let si := insert pol s k v
      (si.1, Ev.read k :: si.2, ⟨v, false, false, false⟩)

/-- Models `operator[]`: access a value, loading it on a miss. -/
def access (pol : Policy K V) (s : Container K V) (k : K) :
    Container K V × List (Ev K V) × V :=
  let g := get pol s k
  (g.1, g.2.1, g.2.2.value)

/-- Models `dirty(key)`: ensure the entry is loaded, then set its dirty flag. -/
def dirty (pol : Policy K V) (s : Container K V) (k : K) :
    Container K V × List (Ev K V) :=
  let g := get pol s k
  (setEntry g.1 k { g.2.2 with dirty := true }, g.2.1)

/-- Models `lock(key, locked)`: ensure the entry is loaded, then set its locked
flag. -/
def lock (pol : Policy K V) (s : Container K V) (k : K) (locked : Bool) :
    Container K V × List (Ev K V) :=
  let g := get pol s k
  (setEntry g.1 k { g.2.2 with locked := locked }, g.2.1)

end Cache

/-!
The `FEATURE_ASYNCHRONOUS` build.  The value type is fixed to `Int`
(the repository instantiates the cache at `Value = int`), because the
prefetch overload of `insert` applies the C++ conversions `bool -> int`
and `int -> bool`: its initializer list
`Entry entry{ false, false, prefetched, value };` is matched against the
member order `value, locked, dirty, prefetched`, so the members receive
`value = (int)false`, `locked = false`, `dirty = prefetched` and
`prefetched = (bool)value`.

`get` and `synchronize` call each other (`synchronize(key)` starts with
`Entry & entry = get(key);`, and `get` calls `synchronize(key)` on every
hit), so they are modelled as a single fuel-indexed function whose `none`
result means the recursion did not bottom out within the given fuel.
-/

namespace CacheAsync

variable {K : Type} [LinearOrder K] [DecidableEq K]

/-- C++ `bool` to `int` conversion. -/
def boolToInt (b : Bool) : Int := if b then 1 else 0

/-- C++ `int` to `bool` conversion. -/
def intToBool (z : Int) : Bool := z != 0

/-- The prefetch overload `insert(key, value, prefetched)`: make room as
in the synchronous overload, then insert
`Entry entry{ false, false, prefetched, value }` — whose initializers are
matched against the member order `value, locked, dirty, prefetched`. -/
def insertPrefetch (pol : Policy K Int) (s : Cache.Container K Int) (k : K)
    (v : Int) (prefetched : Bool) : Cache.Container K Int × List (Ev K Int) :=
  let sp := if pol.full s k then Cache.purgeKey s (pol.condemn s k) else (s, [])
  (Cache.insertSorted sp.1 k ⟨boolToInt false, false, prefetched, intToBool v⟩, sp.2)

/-- Models `prefetch(key)`: when the key is absent, insert a stand-in entry via
`insert(key, value_type(), true)` and start the asynchronous read. -/
def prefetch (pol : Policy K Int) (s : Cache.Container K Int) (k : K) :
    Cache.Container K Int × List (Ev K Int) :=
  match Cache.findEntry s k with
  | some _ => (s, [])
  | none =>
      let si := insertPrefetch pol s k 0 true
      (si.1, si.2 ++ [Ev.readAsync k])

/-- Models `get(key)` of the asynchronous build, with `synchronize(key)` inlined
at the hit branch.  `synchronize` itself begins with
`Entry & entry = get(key);`, which is the recursive call; the assertion
`assert(!entry.dirty || !entry.prefetched)` is modelled by the `none`
outcome of its failing branch.  The result carries the final container,
the store events, and the entry `get` returns a reference to. -/
def get (pol : Policy K Int) :
    Nat → Cache.Container K Int → K →
    Option (Cache.Container K Int × List (Ev K Int) × CacheEntry Int)
  | 0, _, _ => none
  | fuel + 1, s, k =>
    match Cache.findEntry s k with
    | none =>
        let v := pol.read k
        let si := Cache.insert pol s k v
        some (si.1, Ev.read k :: si.2, ⟨v, false, false, false⟩)
    | some _ =>
        match get pol fuel s k with
        | none => none
        | some (s1, ev1, e1) =>
            if e1.dirty && e1.prefetched then none
            else if e1.prefetched then
              let e2 := { e1 with prefetched := false }
              some (Cache.setEntry s1 k e2, ev1 ++ [Ev.waitForAsyncRead k], e2)
            else if e1.dirty then
              let e2 := { e1 with dirty := false }
              some (Cache.setEntry s1 k e2, ev1 ++ [Ev.write k e1.value], e2)
            else some (s1, ev1, e1)

/-- Models `operator[]` of the asynchronous build. -/
def access (pol : Policy K Int) (fuel : Nat) (s : Cache.Container K Int) (k : K) :
    Option (Cache.Container K Int × List (Ev K Int) × Int) :=
  (get pol fuel s k).map fun g => (g.1, g.2.1, g.2.2.value)

/-- Models `dirty(key)` of the asynchronous build. -/
def dirty (pol : Policy K Int) (fuel : Nat) (s : Cache.Container K Int) (k : K) :
    Option (Cache.Container K Int × List (Ev K Int)) :=
  (get pol fuel s k).map fun g => (Cache.setEntry g.1 k { g.2.2 with dirty := true }, g.2.1)

/-- Models `lock(key, locked)` of the asynchronous build. -/
def lock (pol : Policy K Int) (fuel : Nat) (s : Cache.Container K Int) (k : K)
    (locked : Bool) : Option (Cache.Container K Int × List (Ev K Int)) :=
  (get pol fuel s k).map fun g => (Cache.setEntry g.1 k { g.2.2 with locked := locked }, g.2.1)

end CacheAsync

/-!
The bounded aging cache of `include/Cache/SynchronousCache.h`.
-/

namespace SynchronousCache

/-- A slot of the entry vector: key, age, handle and value.  `age` is a
32-bit `int` in the source; it is modelled as an unbounded `Int`, with
the one operation whose 32-bit behaviour is observable —
`Lock`'s `age += 0x80000000`, an `int += unsigned` compound assignment —
modelled by explicit wrap-around (`toInt32`). -/
structure Entry (K H V : Type) where
  key : K
  age : Int
  handle : H
  value : V
deriving Repr, DecidableEq, Inhabited

/-- The store calls made by the bounded cache: `Flush(handle, value)`
on eviction (and destruction). -/
inductive Ev (H V : Type) where
  | Flush : H → V → Ev H V
deriving Repr, DecidableEq

/-- The policy of the bounded cache: `Fetch(key, &value)` returns the
handle and writes the value. -/
structure Policy (K H V : Type) where
  Fetch : K → H × V

/-- Models `NUMBER_OF_ENTRIES`. -/
def NUMBER_OF_ENTRIES : Nat := 8

variable {K H V : Type} [DecidableEq K] [Inhabited K] [Inhabited H] [Inhabited V]

/-- Read the slot at an index (the index is always in range at use
sites). -/
def getAt (s : List (Entry K H V)) (i : Nat) : Entry K H V := s.getD i default

/-- Overwrite the slot at an index. -/
def setAt : List (Entry K H V) → Nat → Entry K H V → List (Entry K H V)
  | [], _, _ => []
  | _ :: t, 0, e => e :: t
  | e1 :: t, i + 1, e => e1 :: setAt t i e

/-- The age bump at the top of `operator()`: `++it->age` for every
resident slot. -/
def bump (s : List (Entry K H V)) : List (Entry K H V) :=
  s.map fun e => { e with age := e.age + 1 }

/-- Models `Find(key)`: index of the first slot whose key matches, scanning in
order. -/
def FindGo : Nat → List (Entry K H V) → K → Option Nat
  | _, [], _ => none
  | i, e :: t, k => if e.key = k then some i else FindGo (i + 1) t k

/-- Models `Find(key)` from the start of the vector. -/
def Find (s : List (Entry K H V)) (k : K) : Option Nat := FindGo 0 s k

/-- The eviction scan: starting from `pOldest = begin()`, move to any
later slot whose age is strictly greater.  `bAge`/`best` are the age and
index of the current oldest, `i` the index of the head of the remaining
list. -/
def oldestGo : Int → Nat → Nat → List (Entry K H V) → Nat
  | _, best, _, [] => best
  | bAge, best, i, e :: t =>
      if bAge < e.age then oldestGo e.age i (i + 1) t else oldestGo bAge best (i + 1) t

/-- Index of the first slot of maximum age (the scan of lines 72-79). -/
def oldestIdx : List (Entry K H V) → Nat
  | [] => 0
  | e :: t => oldestGo e.age 0 1 t

/-- Models `operator()(key)`: bump every age; on a hit reset the slot's age and
return its value; on a miss below capacity fetch into a fresh slot; on a
miss at capacity flush the first oldest slot and overwrite it. -/
def access (pol : Policy K H V) (s : List (Entry K H V)) (k : K) :
    List (Entry K H V) × List (Ev H V) × V :=
  let s1 := bump s
  match Find s1 k with
  | some i =>
      (setAt s1 i { getAt s1 i with age := 0 }, [], (getAt s1 i).value)
  | none =>
      if s1.length < NUMBER_OF_ENTRIES then
        let hv := pol.Fetch k
        (s1 ++ [⟨k, 0, hv.1, hv.2⟩], [], hv.2)
      else
        let j := oldestIdx s1
        let old := getAt s1 j
        let hv := pol.Fetch k
        (setAt s1 j ⟨k, 0, hv.1, hv.2⟩, [Ev.Flush old.handle old.value], hv.2)

/-- Two's-complement wrap of an unbounded integer into `[-2^31, 2^31)`. -/
def toInt32 (z : Int) : Int := (z + 2 ^ 31) % 2 ^ 32 - 2 ^ 31

/-- Models `Lock(key)`: if resident, `age += 0x80000000` (the `int` picks up the
wrapped value of the unsigned sum). -/
def Lock (s : List (Entry K H V)) (k : K) : List (Entry K H V) :=
  match Find s k with
  | none => s
  | some i => setAt s i { getAt s i with age := toInt32 ((getAt s i).age + 2 ^ 31) }

/-- Models `Unlock(key)`: if resident, reset the age to 0. -/
def Unlock (s : List (Entry K H V)) (k : K) : List (Entry K H V) :=
  match Find s k with
  | none => s
  | some i => setAt s i { getAt s i with age := 0 }

/-- A sequence of accesses, keeping only the cache state. -/
def runAccess (pol : Policy K H V) (ks : List K) (s : List (Entry K H V)) :
    List (Entry K H V) :=
  ks.foldl (fun t k1 => (access pol t k1).1) s

end SynchronousCache

/-!
Reachability: the states a cache can be driven to by sequences of public
operations, starting from the default-constructed (empty) cache.
-/

namespace Cache

variable {K V : Type} [LinearOrder K] [DecidableEq K]

/-- One public operation of the synchronous build. -/
inductive Step (pol : Policy K V) : Container K V → Container K V → Prop where
  | access (s : Container K V) (k : K) : Step pol s (Cache.access pol s k).1
  | dirty (s : Container K V) (k : K) : Step pol s (Cache.dirty pol s k).1
  | lock (s : Container K V) (k : K) (b : Bool) : Step pol s (Cache.lock pol s k b).1
  | invalidate (s s1 : Container K V) (k : K) :
      (Cache.invalidate s k).1 = some s1 → Step pol s s1
  | flushKey (s : Container K V) (k : K) : Step pol s (Cache.flushKey s k).1
  | flushAll (s : Container K V) : Step pol s (Cache.flushAll s).1
  | purgeKey (s : Container K V) (k : K) : Step pol s (Cache.purgeKey s k).1
  | clear (s : Container K V) : Step pol s (Cache.clear s).1

/-- States reachable from the empty cache by public operations. -/
inductive Reach (pol : Policy K V) : Container K V → Prop where
  | init : Reach pol []
  | step (s s1 : Container K V) : Reach pol s → Step pol s s1 → Reach pol s1

end Cache

namespace CacheAsync

variable {K : Type} [LinearOrder K] [DecidableEq K]

/-- One public operation of the asynchronous build.  The operations built
on `get` take a step only when the recursion bottoms out (`some`); a call
that exhausts every fuel never returns and so reaches no new state. -/
inductive Step (pol : Policy K Int) :
    Cache.Container K Int → Cache.Container K Int → Prop where
  | access (fuel : Nat) (s s1 : Cache.Container K Int) (k : K)
      (ev : List (Ev K Int)) (v : Int) :
      CacheAsync.access pol fuel s k = some (s1, ev, v) → Step pol s s1
  | dirty (fuel : Nat) (s s1 : Cache.Container K Int) (k : K) (ev : List (Ev K Int)) :
      CacheAsync.dirty pol fuel s k = some (s1, ev) → Step pol s s1
  | lock (fuel : Nat) (s s1 : Cache.Container K Int) (k : K) (b : Bool)
      (ev : List (Ev K Int)) :
      CacheAsync.lock pol fuel s k b = some (s1, ev) → Step pol s s1
  | invalidate (s s1 : Cache.Container K Int) (k : K) :
      (Cache.invalidate s k).1 = some s1 → Step pol s s1
  | flushKey (s : Cache.Container K Int) (k : K) : Step pol s (Cache.flushKey s k).1
  | flushAll (s : Cache.Container K Int) : Step pol s (Cache.flushAll s).1
  | purgeKey (s : Cache.Container K Int) (k : K) : Step pol s (Cache.purgeKey s k).1
  | clear (s : Cache.Container K Int) : Step pol s (Cache.clear s).1
  | prefetch (s : Cache.Container K Int) (k : K) :
      Step pol s (CacheAsync.prefetch pol s k).1

/-- States reachable from the empty cache in the asynchronous build. -/
inductive Reach (pol : Policy K Int) : Cache.Container K Int → Prop where
  | init : Reach pol []
  | step (s s1 : Cache.Container K Int) : Reach pol s → Step pol s s1 → Reach pol s1

end CacheAsync

namespace SynchronousCache

variable {K H V : Type} [DecidableEq K] [Inhabited K] [Inhabited H] [Inhabited V]

/-- One public operation of the bounded aging cache. -/
inductive Step (pol : Policy K H V) :
    List (Entry K H V) → List (Entry K H V) → Prop where
  | access (s : List (Entry K H V)) (k : K) : Step pol s (SynchronousCache.access pol s k).1
  | lock (s : List (Entry K H V)) (k : K) : Step pol s (Lock s k)
  | unlock (s : List (Entry K H V)) (k : K) : Step pol s (Unlock s k)

/-- States reachable from the default-constructed (empty) bounded cache. -/
inductive Reach (pol : Policy K H V) : List (Entry K H V) → Prop where
  | init : Reach pol []
  | step (s s1 : List (Entry K H V)) : Reach pol s → Step pol s s1 → Reach pol s1

end SynchronousCache

/-!
Basic lemmas about the container operations.
-/

namespace Cache

variable {K V : Type} [LinearOrder K] [DecidableEq K]

theorem length_setEntry (s : Container K V) (k : K) (e : CacheEntry V) :
    (setEntry s k e).length = s.length := by
  induction s with
  | nil => simp [setEntry]
  | cons p t ih =>
      obtain ⟨k1, e1⟩ := p
      by_cases h : k = k1 <;> simp [setEntry, h, ih]

theorem length_eraseKey_le (s : Container K V) (k : K) :
    (eraseKey s k).length ≤ s.length := by
  induction s with
  | nil => simp [eraseKey]
  | cons p t ih =>
      obtain ⟨k1, e1⟩ := p
      by_cases h : k = k1 <;> simp [eraseKey, h] <;> omega

theorem length_eraseKey_of_find (s : Container K V) (k : K) (e : CacheEntry V)
    (hf : findEntry s k = some e) : (eraseKey s k).length + 1 = s.length := by
  induction s with
  | nil => simp [findEntry] at hf
  | cons p t ih =>
      obtain ⟨k1, e1⟩ := p
      by_cases h : k = k1
      · simp [eraseKey, h]
      · simp [findEntry, h] at hf
        simp [eraseKey, h, ih hf]

theorem length_insertSorted_le (s : Container K V) (k : K) (e : CacheEntry V) :
    (insertSorted s k e).length ≤ s.length + 1 := by
  induction s with
  | nil => simp [insertSorted]
  | cons p t ih =>
      obtain ⟨k1, e1⟩ := p
      by_cases h1 : k < k1
      · simp [insertSorted, h1]
      · by_cases h2 : k = k1 <;> simp [insertSorted, h1, h2] <;> omega

theorem findEntry_insertSorted_self (s : Container K V) (k : K) (e : CacheEntry V)
    (hf : findEntry s k = none) : findEntry (insertSorted s k e) k = some e := by
  induction s with
  | nil => simp [insertSorted, findEntry]
  | cons p t ih =>
      obtain ⟨k1, e1⟩ := p
      by_cases h2 : k = k1
      · simp [findEntry, h2] at hf
      · simp [findEntry, h2] at hf
        by_cases h1 : k < k1
        · simp [insertSorted, h1, findEntry]
        · simp [insertSorted, h1, h2, findEntry, ih hf]

theorem findEntry_setEntry_self (s : Container K V) (k : K) (e0 e : CacheEntry V)
    (hf : findEntry s k = some e0) : findEntry (setEntry s k e) k = some e := by
  induction s with
  | nil => simp [findEntry] at hf
  | cons p t ih =>
      obtain ⟨k1, e1⟩ := p
      by_cases h : k = k1
      · simp [setEntry, h, findEntry]
      · simp [findEntry, h] at hf
        simp [setEntry, h, findEntry, ih hf]

theorem findEntry_setEntry_ne (s : Container K V) (k j : K) (e : CacheEntry V)
    (hj : j ≠ k) : findEntry (setEntry s k e) j = findEntry s j := by
  induction s with
  | nil => simp [setEntry]
  | cons p t ih =>
      obtain ⟨k1, e1⟩ := p
      by_cases h : k = k1
      · subst h
        simp [setEntry, findEntry, hj]
      · by_cases h2 : j = k1 <;> simp [setEntry, h, findEntry, h2, ih]

theorem findEntry_eraseKey_ne (s : Container K V) (k j : K) (hj : j ≠ k) :
    findEntry (eraseKey s k) j = findEntry s j := by
  induction s with
  | nil => simp [eraseKey]
  | cons p t ih =>
      obtain ⟨k1, e1⟩ := p
      by_cases h : k = k1
      · subst h
        simp [eraseKey, findEntry, hj]
      · by_cases h2 : j = k1 <;> simp [eraseKey, h, findEntry, h2, ih]

theorem findEntry_mem (s : Container K V) (k : K) (e : CacheEntry V)
    (hf : findEntry s k = some e) : (k, e) ∈ s := by
  induction s with
  | nil => simp [findEntry] at hf
  | cons p t ih =>
      obtain ⟨k1, e1⟩ := p
      by_cases h : k = k1
      · subst h
        simp [findEntry] at hf
        simp [hf]
      · simp [findEntry, h] at hf
        simp [ih hf]

theorem length_flushAll (s : Container K V) : (flushAll s).1.length = s.length := by
  induction s with
  | nil => simp [flushAll]
  | cons p t ih =>
      obtain ⟨k1, e1⟩ := p
      simp [flushAll, ih]

theorem length_flushKey (s : Container K V) (k : K) :
    (flushKey s k).1.length = s.length := by
  unfold flushKey
  cases hf : findEntry s k with
  | none => rfl
  | some e => simp [length_setEntry]

theorem length_purgeKey_le (s : Container K V) (k : K) :
    (purgeKey s k).1.length ≤ s.length := by
  unfold purgeKey
  cases hf : findEntry s k with
  | none => simp
  | some e => simpa using length_eraseKey_le s k

theorem length_purgeKey_of_find (s : Container K V) (k : K) (e : CacheEntry V)
    (hf : findEntry s k = some e) : (purgeKey s k).1.length + 1 = s.length := by
  unfold purgeKey
  rw [hf]
  simpa using length_eraseKey_of_find s k e hf

theorem length_clear (s : Container K V) : (clear s).1.length = 0 := by
  induction s with
  | nil => simp [clear]
  | cons p t ih =>
      obtain ⟨k1, e1⟩ := p
      simp [clear, ih]

end Cache

/-!
Behaviour of the synchronous-build operations on hits, misses and absent
keys.
-/

namespace Cache

variable {K V : Type} [LinearOrder K] [DecidableEq K]

theorem get_hit (pol : Policy K V) (s : Container K V) (k : K) (e : CacheEntry V)
    (hf : findEntry s k = some e) : get pol s k = (s, [], e) := by
  simp [get, hf]

theorem get_miss (pol : Policy K V) (s : Container K V) (k : K)
    (hf : findEntry s k = none) :
    get pol s k =
      ((insert pol s k (pol.read k)).1,
       Ev.read k :: (insert pol s k (pol.read k)).2,
       ⟨pol.read k, false, false, false⟩) := by
  simp [get, hf]

theorem findEntry_purgeKey_none (s : Container K V) (k j : K)
    (hf : findEntry s k = none) : findEntry (purgeKey s j).1 k = none := by
  unfold purgeKey
  cases hj : findEntry s j with
  | none => simpa using hf
  | some e =>
      by_cases hkj : k = j
      · subst hkj
        rw [hf] at hj
        exact absurd hj (by simp)
      · simpa [findEntry_eraseKey_ne s j k hkj] using hf

theorem findEntry_insert_self (pol : Policy K V) (s : Container K V) (k : K) (v : V)
    (hf : findEntry s k = none) :
    findEntry (insert pol s k v).1 k = some ⟨v, false, false, false⟩ := by
  unfold insert
  by_cases hfull : pol.full s k = true
  · simp only [hfull, if_true]
    exact findEntry_insertSorted_self _ k _ (findEntry_purgeKey_none s k _ hf)
  · simp only [Bool.not_eq_true] at hfull
    simp only [hfull, Bool.false_eq_true, if_false]
    exact findEntry_insertSorted_self _ k _ hf

end Cache

/-- A concrete backing-store policy used to instantiate the theorems with
hypotheses: capacity 2 via `full`, `read` returns key + 7, `condemn`
returns the key of the first entry. -/
def polW : Policy Nat Int where
  full := fun c _ => decide (2 ≤ c.length)
  read := fun k => (k : Int) + 7
  condemn := fun c _ =>
    match c with
    | [] => 0
    | (k1, _) :: _ => k1

/-- C2: the policy's `write` is invoked only for a dirty entry being
evicted (flush and purge are covered by C5/C4); in particular an access
of a resident dirty key performs no write-back, returns the dirty value
as-is, and leaves the cache state — including the dirty flag — unchanged.
The second conjunct: any `write` event an access can ever emit comes from
evicting the policy-condemned dirty victim during a load-on-miss into a
full cache. -/
theorem C2_access_no_writeback_on_dirty_hit {K V : Type} [LinearOrder K] [DecidableEq K]
    (pol : Policy K V) (s : Cache.Container K V) (k : K) (e : CacheEntry V)
    (hf : Cache.findEntry s k = some e) (hd : e.dirty = true) :
    Cache.access pol s k = (s, [], e.value)
  ∧ ∀ (s2 : Cache.Container K V) (k2 j : K) (v : V),
      Ev.write j v ∈ (Cache.access pol s2 k2).2.1 →
      ∃ e2 : CacheEntry V,
        Cache.findEntry s2 k2 = none ∧ pol.full s2 k2 = true ∧
        j = pol.condemn s2 k2 ∧ Cache.findEntry s2 j = some e2 ∧
        e2.dirty = true ∧ v = e2.value := by
  constructor
  · simp [Cache.access, Cache.get_hit pol s k e hf]
  · intro s2 k2 j v hw
    unfold Cache.access at hw
    cases hf2 : Cache.findEntry s2 k2 with
    | some e2 => simp [Cache.get_hit pol s2 k2 e2 hf2] at hw
    | none =>
        rw [Cache.get_miss pol s2 k2 hf2] at hw
        simp only [Cache.insert] at hw
        by_cases hfull : pol.full s2 k2 = true
        · simp only [hfull, if_true] at hw
          unfold Cache.purgeKey at hw
          cases hv : Cache.findEntry s2 (pol.condemn s2 k2) with
          | none => simp [hv] at hw
          | some e2 =>
              rw [hv] at hw
              unfold Cache.flushEntryPair at hw
              by_cases hd2 : e2.dirty = true
              · simp only [hd2, if_true, List.mem_cons, List.mem_singleton] at hw
                rcases hw with h | h | h
                · exact absurd h (by simp)
                · injection h with h1 h2
                  exact ⟨e2, rfl, hfull, h1, h1 ▸ hv, hd2, h2⟩
                · exact absurd h (by simp)
              · simp [hd2] at hw
        · simp only [Bool.not_eq_true] at hfull
          simp [hfull] at hw

/-- Witness for C2 at a concrete dirty resident entry. -/
theorem C2_witness :
    Cache.access polW [(0, ⟨5, false, true, false⟩)] 0
      = ([(0, ⟨5, false, true, false⟩)], [], 5) :=
  (C2_access_no_writeback_on_dirty_hit polW [(0, ⟨5, false, true, false⟩)] 0
    ⟨5, false, true, false⟩ (by decide) rfl).1

/-- C4: `invalidate` on a resident clean entry erases it and makes no
store call; on a resident dirty entry the assertion
`assert(!p->second.dirty)` rejects the call (the `none` outcome), again
with no store call — `write` is never invoked by invalidation. -/
theorem C4_invalidate_contract {K V : Type} [LinearOrder K] [DecidableEq K]
    (s : Cache.Container K V) (k : K) (e : CacheEntry V)
    (hf : Cache.findEntry s k = some e) :
    (e.dirty = false → Cache.invalidate s k = (some (Cache.eraseKey s k), []))
  ∧ (e.dirty = true → Cache.invalidate s k = (none, [])) := by
  unfold Cache.invalidate
  rw [hf]
  constructor
  · intro hd
    simp [hd]
  · intro hd
    simp [hd]

/-- Witness for C4: a clean entry is erased, a dirty one is rejected. -/
theorem C4_witness :
    Cache.invalidate [(1, (⟨4, false, false, false⟩ : CacheEntry Int))] 1
      = (some [], [])
  ∧ Cache.invalidate [(2, (⟨9, false, true, false⟩ : CacheEntry Int))] 2
      = (none, []) := by
  constructor
  · exact (C4_invalidate_contract [(1, ⟨4, false, false, false⟩)] 1
      ⟨4, false, false, false⟩ (by decide)).1 rfl
  · exact (C4_invalidate_contract [(2, ⟨9, false, true, false⟩)] 2
      ⟨9, false, true, false⟩ (by decide)).2 rfl

/-- C5: for a resident key, `dirty(key)` followed by `flush(key)` makes
exactly one `write` call, carrying the value the entry holds at flush
time; afterwards the entry is resident and clean, the entry count is
unchanged, and every other key maps to the same entry as before. -/
theorem C5_dirty_then_flush_writes_once {K V : Type} [LinearOrder K] [DecidableEq K]
    (pol : Policy K V) (s : Cache.Container K V) (k j : K) (e : CacheEntry V)
    (hf : Cache.findEntry s k = some e) (hj : j ≠ k) :
    (Cache.dirty pol s k).2 = []
  ∧ (Cache.flushKey (Cache.dirty pol s k).1 k).2 = [Ev.write k e.value]
  ∧ Cache.findEntry (Cache.flushKey (Cache.dirty pol s k).1 k).1 k
      = some ⟨e.value, e.locked, false, e.prefetched⟩
  ∧ (Cache.flushKey (Cache.dirty pol s k).1 k).1.length = s.length
  ∧ Cache.findEntry (Cache.flushKey (Cache.dirty pol s k).1 k).1 j
      = Cache.findEntry s j := by
  have hd1 : Cache.dirty pol s k = (Cache.setEntry s k { e with dirty := true }, []) := by
    simp [Cache.dirty, Cache.get_hit pol s k e hf]
  have hfind1 : Cache.findEntry (Cache.dirty pol s k).1 k = some { e with dirty := true } := by
    rw [hd1]
    exact Cache.findEntry_setEntry_self s k e _ hf
  have hflush : Cache.flushKey (Cache.dirty pol s k).1 k
      = (Cache.setEntry (Cache.dirty pol s k).1 k ⟨e.value, e.locked, false, e.prefetched⟩,
         [Ev.write k e.value]) := by
    unfold Cache.flushKey
    rw [hfind1]
    simp [Cache.flushEntryPair]
  refine ⟨by rw [hd1], by rw [hflush], ?_, ?_, ?_⟩
  · rw [hflush]
    exact Cache.findEntry_setEntry_self _ k _ _ hfind1
  · rw [hflush]
    simp only [Cache.length_setEntry]
    rw [hd1]
    simp [Cache.length_setEntry]
  · rw [hflush]
    rw [Cache.findEntry_setEntry_ne _ k j _ hj, hd1]
    exact Cache.findEntry_setEntry_ne s k j _ hj

/-- Witness for C5 at a concrete two-entry cache. -/
theorem C5_witness :
    (Cache.dirty polW [(0, ⟨5, false, false, false⟩), (1, ⟨6, false, false, false⟩)] 0).2 = []
  ∧ (Cache.flushKey
      (Cache.dirty polW [(0, ⟨5, false, false, false⟩), (1, ⟨6, false, false, false⟩)] 0).1 0).2
      = [Ev.write 0 5]
  ∧ Cache.findEntry (Cache.flushKey
      (Cache.dirty polW [(0, ⟨5, false, false, false⟩), (1, ⟨6, false, false, false⟩)] 0).1 0).1 0
      = some ⟨5, false, false, false⟩
  ∧ (Cache.flushKey
      (Cache.dirty polW [(0, ⟨5, false, false, false⟩), (1, ⟨6, false, false, false⟩)] 0).1 0).1.length
      = ([(0, (⟨5, false, false, false⟩ : CacheEntry Int)), (1, ⟨6, false, false, false⟩)] : Cache.Container Nat Int).length
  ∧ Cache.findEntry (Cache.flushKey
      (Cache.dirty polW [(0, ⟨5, false, false, false⟩), (1, ⟨6, false, false, false⟩)] 0).1 0).1 1
      = Cache.findEntry [(0, ⟨5, false, false, false⟩), (1, ⟨6, false, false, false⟩)] 1 :=
  C5_dirty_then_flush_writes_once polW
    [(0, ⟨5, false, false, false⟩), (1, ⟨6, false, false, false⟩)] 0 1
    ⟨5, false, false, false⟩ (by decide) (by decide)

/-- C10: on a key with no resident entry, `flush(key)`, `purge(key)` and
`invalidate(key)` leave the cache unchanged and make no store call,
whereas `dirty(key)` and `lock(key)` load the missing entry (a `read`
call, and the key is resident afterwards). -/
theorem C10_absent_key_noops {K V : Type} [LinearOrder K] [DecidableEq K]
    (pol : Policy K V) (s : Cache.Container K V) (k : K)
    (hf : Cache.findEntry s k = none) :
    Cache.flushKey s k = (s, [])
  ∧ Cache.purgeKey s k = (s, [])
  ∧ Cache.invalidate s k = (some s, [])
  ∧ Ev.read k ∈ (Cache.dirty pol s k).2
  ∧ (Cache.findEntry (Cache.dirty pol s k).1 k).isSome = true
  ∧ Ev.read k ∈ (Cache.lock pol s k true).2
  ∧ (Cache.findEntry (Cache.lock pol s k true).1 k).isSome = true := by
  have hins : Cache.findEntry (Cache.insert pol s k (pol.read k)).1 k
      = some ⟨pol.read k, false, false, false⟩ :=
    Cache.findEntry_insert_self pol s k _ hf
  refine ⟨?_, ?_, ?_, ?_, ?_, ?_, ?_⟩
  · unfold Cache.flushKey
    rw [hf]
  · unfold Cache.purgeKey
    rw [hf]
  · unfold Cache.invalidate
    rw [hf]
  · simp [Cache.dirty, Cache.get_miss pol s k hf]
  · simp only [Cache.dirty, Cache.get_miss pol s k hf]
    rw [Cache.findEntry_setEntry_self _ k _ _ hins]
    rfl
  · simp [Cache.lock, Cache.get_miss pol s k hf]
  · simp only [Cache.lock, Cache.get_miss pol s k hf]
    rw [Cache.findEntry_setEntry_self _ k _ _ hins]
    rfl

/-- Witness for C10 at a concrete cache not containing the key. -/
theorem C10_witness :
    Cache.flushKey [(1, (⟨3, false, false, false⟩ : CacheEntry Int))] 0
      = ([(1, ⟨3, false, false, false⟩)], [])
  ∧ Cache.purgeKey [(1, (⟨3, false, false, false⟩ : CacheEntry Int))] 0
      = ([(1, ⟨3, false, false, false⟩)], [])
  ∧ Cache.invalidate [(1, (⟨3, false, false, false⟩ : CacheEntry Int))] 0
      = (some [(1, ⟨3, false, false, false⟩)], [])
  ∧ Ev.read 0 ∈ (Cache.dirty polW [(1, ⟨3, false, false, false⟩)] 0).2
  ∧ (Cache.findEntry (Cache.dirty polW [(1, ⟨3, false, false, false⟩)] 0).1 0).isSome = true
  ∧ Ev.read 0 ∈ (Cache.lock polW [(1, ⟨3, false, false, false⟩)] 0 true).2
  ∧ (Cache.findEntry (Cache.lock polW [(1, ⟨3, false, false, false⟩)] 0 true).1 0).isSome = true :=
  C10_absent_key_noops polW [(1, ⟨3, false, false, false⟩)] 0 (by decide)


/-!
Capacity: the generic engine under a capacity-style policy, and the
bounded aging cache.
-/

namespace Cache

variable {K V : Type} [LinearOrder K] [DecidableEq K]

theorem insert_length_le (pol : Policy K V) (cap : Nat) (hcap : 0 < cap)
    (hfull : ∀ (c : Container K V) (k2 : K), cap ≤ c.length → pol.full c k2 = true)
    (hcond : ∀ (c : Container K V) (k2 : K), c ≠ [] →
      (findEntry c (pol.condemn c k2)).isSome = true)
    (s : Container K V) (k : K) (v : V) (hle : s.length ≤ cap) :
    (insert pol s k v).1.length ≤ cap := by
  unfold insert
  by_cases hfu : pol.full s k = true
  · simp only [hfu, if_true]
    by_cases hs : s = []
    · subst hs
      simpa [purgeKey, findEntry, insertSorted] using hcap
    · obtain ⟨e2, hv⟩ := Option.isSome_iff_exists.mp (hcond s k hs)
      have h1 := length_purgeKey_of_find s (pol.condemn s k) e2 hv
      have h2 := length_insertSorted_le (purgeKey s (pol.condemn s k)).1 k
        (⟨v, false, false, false⟩ : CacheEntry V)
      omega
  · simp only [Bool.not_eq_true] at hfu
    simp only [hfu, Bool.false_eq_true, if_false]
    have h2 := length_insertSorted_le s k (⟨v, false, false, false⟩ : CacheEntry V)
    have hlt : s.length < cap := by
      by_contra hge
      have := hfull s k (by omega)
      rw [hfu] at this
      exact Bool.false_ne_true this
    omega

theorem get_length_le (pol : Policy K V) (cap : Nat) (hcap : 0 < cap)
    (hfull : ∀ (c : Container K V) (k2 : K), cap ≤ c.length → pol.full c k2 = true)
    (hcond : ∀ (c : Container K V) (k2 : K), c ≠ [] →
      (findEntry c (pol.condemn c k2)).isSome = true)
    (s : Container K V) (k : K) (hle : s.length ≤ cap) :
    (get pol s k).1.length ≤ cap := by
  cases hf : findEntry s k with
  | some e => simpa [get_hit pol s k e hf] using hle
  | none =>
      rw [get_miss pol s k hf]
      exact insert_length_le pol cap hcap hfull hcond s k _ hle

theorem step_length_le (pol : Policy K V) (cap : Nat) (hcap : 0 < cap)
    (hfull : ∀ (c : Container K V) (k2 : K), cap ≤ c.length → pol.full c k2 = true)
    (hcond : ∀ (c : Container K V) (k2 : K), c ≠ [] →
      (findEntry c (pol.condemn c k2)).isSome = true)
    (s s1 : Container K V) (hs : Step pol s s1) (hle : s.length ≤ cap) :
    s1.length ≤ cap := by
  cases hs with
  | access k =>
      simpa [Cache.access] using get_length_le pol cap hcap hfull hcond s k hle
  | dirty k =>
      simpa [Cache.dirty, length_setEntry] using
        get_length_le pol cap hcap hfull hcond s k hle
  | lock k b =>
      simpa [Cache.lock, length_setEntry] using
        get_length_le pol cap hcap hfull hcond s k hle
  | invalidate s1 k h =>
      unfold invalidate at h
      cases hf : findEntry s k with
      | none =>
          rw [hf] at h
          simp only at h
          injection h with h
          subst h
          exact hle
      | some e =>
          rw [hf] at h
          by_cases hd : e.dirty = true
          · simp [hd] at h
          · simp only [Bool.not_eq_true] at hd
            simp only [hd, Bool.false_eq_true, if_false] at h
            injection h with h
            subst h
            have := length_eraseKey_le s k
            omega
  | flushKey k =>
      rw [length_flushKey]
      exact hle
  | flushAll =>
      rw [length_flushAll]
      exact hle
  | purgeKey k =>
      have := length_purgeKey_le s k
      omega
  | clear =>
      rw [length_clear]
      omega

end Cache

namespace SynchronousCache

variable {K H V : Type} [DecidableEq K] [Inhabited K] [Inhabited H] [Inhabited V]

theorem length_setAt (s : List (Entry K H V)) (i : Nat) (e : Entry K H V) :
    (setAt s i e).length = s.length := by
  induction s generalizing i with
  | nil => simp [setAt]
  | cons e1 t ih =>
      cases i with
      | zero => simp [setAt]
      | succ i => simp [setAt, ih]

theorem length_bump (s : List (Entry K H V)) : (bump s).length = s.length := by
  simp [bump]

theorem access_length_le (pol : Policy K H V) (s : List (Entry K H V)) (k : K)
    (hle : s.length ≤ NUMBER_OF_ENTRIES) :
    (access pol s k).1.length ≤ NUMBER_OF_ENTRIES := by
  cases hfind : Find (bump s) k with
  | some i =>
      simp only [access, hfind, length_setAt, length_bump]
      exact hle
  | none =>
      by_cases hlt : s.length < NUMBER_OF_ENTRIES
      · simp only [access, hfind, length_bump, hlt, if_true, List.length_append,
          List.length_cons, List.length_nil]
        omega
      · simp only [access, hfind, length_bump, hlt, if_false, length_setAt]
        exact hle

theorem bstep_length_le (pol : Policy K H V) (s s1 : List (Entry K H V))
    (hs : Step pol s s1) (hle : s.length ≤ NUMBER_OF_ENTRIES) :
    s1.length ≤ NUMBER_OF_ENTRIES := by
  cases hs with
  | access k => exact access_length_le pol s k hle
  | lock k =>
      cases hfind : Find s k with
      | none => simpa only [Lock, hfind] using hle
      | some i => simpa only [Lock, hfind, length_setAt] using hle
  | unlock k =>
      cases hfind : Find s k with
      | none => simpa only [Unlock, hfind] using hle
      | some i => simpa only [Unlock, hfind, length_setAt] using hle

end SynchronousCache

/-- C6: capacity bounds of both engines.  For the generic engine, under a
policy whose `full` reports true whenever the entry count has reached the
capacity and whose `condemn` always designates a resident victim, every
reachable state has at most `cap` entries, and an insert into a cache at
capacity first purges exactly one victim — the one chosen by `condemn` —
before inserting.  The bounded aging cache never holds more than
`NUMBER_OF_ENTRIES = 8` slots in any reachable state. -/
theorem C6_capacity_bound {K V K2 H V2 : Type} [LinearOrder K] [DecidableEq K]
    [DecidableEq K2] [Inhabited K2] [Inhabited H] [Inhabited V2]
    (pol : Policy K V) (cap : Nat) (hcap : 0 < cap)
    (hfull : ∀ (c : Cache.Container K V) (k2 : K), cap ≤ c.length → pol.full c k2 = true)
    (hcond : ∀ (c : Cache.Container K V) (k2 : K), c ≠ [] →
      (Cache.findEntry c (pol.condemn c k2)).isSome = true)
    (bpol : SynchronousCache.Policy K2 H V2) :
    (∀ s, Cache.Reach pol s → s.length ≤ cap)
  ∧ (∀ (s : Cache.Container K V) (k : K) (v : V), s.length = cap →
      (Cache.purgeKey s (pol.condemn s k)).1.length + 1 = s.length
      ∧ Cache.insert pol s k v
          = (Cache.insertSorted (Cache.purgeKey s (pol.condemn s k)).1 k
              ⟨v, false, false, false⟩,
             (Cache.purgeKey s (pol.condemn s k)).2)
      ∧ (Cache.insert pol s k v).1.length ≤ cap)
  ∧ (∀ t, SynchronousCache.Reach bpol t → t.length ≤ SynchronousCache.NUMBER_OF_ENTRIES) := by
  refine ⟨?_, ?_, ?_⟩
  · intro s hs
    induction hs with
    | init => simp
    | step s s1 hr hstep ih => exact Cache.step_length_le pol cap hcap hfull hcond s s1 hstep ih
  · intro s k v hlen
    have hne : s ≠ [] := by
      intro h
      rw [h] at hlen
      simp at hlen
      omega
    obtain ⟨e2, hv⟩ := Option.isSome_iff_exists.mp (hcond s k hne)
    have h1 := Cache.length_purgeKey_of_find s (pol.condemn s k) e2 hv
    have hfu : pol.full s k = true := hfull s k (by omega)
    refine ⟨by omega, by simp [Cache.insert, hfu], ?_⟩
    exact Cache.insert_length_le pol cap hcap hfull hcond s k v (by omega)
  · intro t ht
    induction ht with
    | init => simp
    | step s s1 hr hstep ih => exact SynchronousCache.bstep_length_le bpol s s1 hstep ih

/-- A concrete bounded-cache policy for witnesses: `Fetch` returns the key
as handle and the key as value. -/
def bpolW : SynchronousCache.Policy Nat Nat Int where
  Fetch := fun k => (k, (k : Int))

/-- Witness for C6: a reachable generic-engine state under the concrete
capacity-2 policy, the purge-one-victim fact at a full cache, and a
reachable bounded-cache state. -/
theorem C6_witness :
    ((Cache.access polW [] 0).1.length ≤ 2)
  ∧ (Cache.purgeKey [(0, (⟨5, false, true, false⟩ : CacheEntry Int)), (1, ⟨6, false, false, false⟩)]
      (polW.condemn [(0, ⟨5, false, true, false⟩), (1, ⟨6, false, false, false⟩)] 2)).1.length + 1
      = ([(0, (⟨5, false, true, false⟩ : CacheEntry Int)), (1, ⟨6, false, false, false⟩)] : Cache.Container Nat Int).length
  ∧ ((SynchronousCache.access bpolW [] 0).1.length ≤ SynchronousCache.NUMBER_OF_ENTRIES) := by
  have hfull : ∀ (c : Cache.Container Nat Int) (k2 : Nat), 2 ≤ c.length → polW.full c k2 = true := by
    intro c k2 h
    simpa [polW] using h
  have hcond : ∀ (c : Cache.Container Nat Int) (k2 : Nat), c ≠ [] →
      (Cache.findEntry c (polW.condemn c k2)).isSome = true := by
    intro c k2 hne
    cases c with
    | nil => exact absurd rfl hne
    | cons p t =>
        obtain ⟨k1, e1⟩ := p
        simp [polW, Cache.findEntry]
  have h := C6_capacity_bound polW 2 (by omega) hfull hcond bpolW
  refine ⟨?_, ?_, ?_⟩
  · exact h.1 _ (Cache.Reach.step _ _ Cache.Reach.init (Cache.Step.access [] 0))
  · exact (h.2.1 [(0, ⟨5, false, true, false⟩), (1, ⟨6, false, false, false⟩)] 2
      (7 : Int) (by decide)).1
  · exact h.2.2 _ (SynchronousCache.Reach.step _ _ SynchronousCache.Reach.init
      (SynchronousCache.Step.access [] 0))

/-!
The asynchronous build: the prefetched flag across reachable states, and
the behaviour of `get` (i.e. `operator[]`) on hits.
-/

namespace Cache

variable {K V : Type} [LinearOrder K] [DecidableEq K]

/-- No entry of the container has its prefetched flag set. -/
def allNotPrefetched (s : Container K V) : Prop :=
  ∀ p ∈ s, (p.2).prefetched = false

theorem allNotPrefetched_nil : allNotPrefetched ([] : Container K V) := by
  intro p hp
  simp at hp

theorem allNotPrefetched_setEntry (s : Container K V) (k : K) (e : CacheEntry V)
    (hs : allNotPrefetched s) (he : e.prefetched = false) :
    allNotPrefetched (setEntry s k e) := by
  induction s with
  | nil => simpa [setEntry] using allNotPrefetched_nil
  | cons p t ih =>
      obtain ⟨k1, e1⟩ := p
      have ht : allNotPrefetched t := fun q hq => hs q (by simp [hq])
      by_cases h : k = k1
      · intro q hq
        simp only [setEntry, h, if_true] at hq
        rcases List.mem_cons.mp hq with h1 | h1
        · simpa [h1] using he
        · exact hs q (by simp [h1])
      · intro q hq
        simp only [setEntry, h, if_false] at hq
        rcases List.mem_cons.mp hq with h1 | h1
        · exact hs q (by simp [h1])
        · exact ih ht q h1

theorem allNotPrefetched_eraseKey (s : Container K V) (k : K)
    (hs : allNotPrefetched s) : allNotPrefetched (eraseKey s k) := by
  induction s with
  | nil => simpa [eraseKey] using allNotPrefetched_nil
  | cons p t ih =>
      obtain ⟨k1, e1⟩ := p
      have ht : allNotPrefetched t := fun q hq => hs q (by simp [hq])
      by_cases h : k = k1
      · intro q hq
        simp only [eraseKey, h, if_true] at hq
        exact ht q hq
      · intro q hq
        simp only [eraseKey, h, if_false] at hq
        rcases List.mem_cons.mp hq with h1 | h1
        · exact hs q (by simp [h1])
        · exact ih ht q h1

theorem allNotPrefetched_insertSorted (s : Container K V) (k : K) (e : CacheEntry V)
    (hs : allNotPrefetched s) (he : e.prefetched = false) :
    allNotPrefetched (insertSorted s k e) := by
  induction s with
  | nil =>
      intro q hq
      simp only [insertSorted, List.mem_singleton] at hq
      simpa [hq] using he
  | cons p t ih =>
      obtain ⟨k1, e1⟩ := p
      have ht : allNotPrefetched t := fun q hq => hs q (by simp [hq])
      by_cases h1 : k < k1
      · intro q hq
        simp only [insertSorted, h1, if_true] at hq
        rcases List.mem_cons.mp hq with h2 | h2
        · simpa [h2] using he
        · exact hs q h2
      · by_cases h2 : k = k1
        · intro q hq
          rw [h2] at hq
          simp only [insertSorted, lt_irrefl, if_false, if_true] at hq
          exact hs q hq
        · intro q hq
          simp only [insertSorted, h1, h2, if_false] at hq
          rcases List.mem_cons.mp hq with h3 | h3
          · exact hs q (by simp [h3])
          · exact ih ht q h3

theorem flushEntryPair_prefetched (k : K) (e : CacheEntry V) :
    ((flushEntryPair k e).1).prefetched = e.prefetched := by
  unfold flushEntryPair
  by_cases h : e.dirty <;> simp [h]

theorem allNotPrefetched_flushKey (s : Container K V) (k : K)
    (hs : allNotPrefetched s) : allNotPrefetched (flushKey s k).1 := by
  unfold flushKey
  cases hf : findEntry s k with
  | none => exact hs
  | some e =>
      have he : e.prefetched = false := hs (k, e) (findEntry_mem s k e hf)
      exact allNotPrefetched_setEntry s k _ hs (by rw [flushEntryPair_prefetched, he])

theorem allNotPrefetched_flushAll (s : Container K V)
    (hs : allNotPrefetched s) : allNotPrefetched (flushAll s).1 := by
  induction s with
  | nil => simpa [flushAll] using hs
  | cons p t ih =>
      obtain ⟨k1, e1⟩ := p
      have ht : allNotPrefetched t := fun q hq => hs q (by simp [hq])
      intro q hq
      simp only [flushAll] at hq
      rcases List.mem_cons.mp hq with h1 | h1
      · have he1 : e1.prefetched = false := hs (k1, e1) (by simp)
        rw [h1]
        simpa [flushEntryPair_prefetched] using he1
      · exact ih ht q h1

theorem allNotPrefetched_purgeKey (s : Container K V) (k : K)
    (hs : allNotPrefetched s) : allNotPrefetched (purgeKey s k).1 := by
  unfold purgeKey
  cases hf : findEntry s k with
  | none => exact hs
  | some e => exact allNotPrefetched_eraseKey s k hs

theorem clear_fst (s : Container K V) : (clear s).1 = [] := by
  induction s with
  | nil => simp [clear]
  | cons p t ih =>
      obtain ⟨k1, e1⟩ := p
      simp [clear, ih]

theorem allNotPrefetched_insert (pol : Policy K V) (s : Container K V) (k : K) (v : V)
    (hs : allNotPrefetched s) : allNotPrefetched (insert pol s k v).1 := by
  unfold insert
  by_cases hfu : pol.full s k = true
  · simp only [hfu, if_true]
    exact allNotPrefetched_insertSorted _ k _ (allNotPrefetched_purgeKey s _ hs) rfl
  · simp only [Bool.not_eq_true] at hfu
    simp only [hfu, Bool.false_eq_true, if_false]
    exact allNotPrefetched_insertSorted s k _ hs rfl

end Cache

namespace CacheAsync

variable {K : Type} [LinearOrder K] [DecidableEq K]

/-- On any hit — a key that is already resident — `get` of the
asynchronous build recurses through `synchronize` back into `get` on the
same state and key, so no amount of fuel makes it return. -/
theorem get_hit_none (pol : Policy K Int) (s : Cache.Container K Int) (k : K)
    (e : CacheEntry Int) (hf : Cache.findEntry s k = some e) :
    ∀ fuel, get pol fuel s k = none := by
  intro fuel
  induction fuel with
  | zero => simp [get]
  | succ fuel ih => simp [get, hf, ih]

theorem get_some_allNotPrefetched (pol : Policy K Int) (fuel : Nat)
    (s s1 : Cache.Container K Int) (k : K) (ev : List (Ev K Int)) (e1 : CacheEntry Int)
    (h : get pol fuel s k = some (s1, ev, e1)) (hs : Cache.allNotPrefetched s) :
    Cache.allNotPrefetched s1 ∧ e1.prefetched = false := by
  cases fuel with
  | zero => simp [get] at h
  | succ fuel =>
      cases hf : Cache.findEntry s k with
      | some e0 =>
          rw [get_hit_none pol s k e0 hf (fuel + 1)] at h
          exact absurd h (by simp)
      | none =>
          simp only [get, hf, Option.some.injEq, Prod.mk.injEq] at h
          obtain ⟨h1, h2, h3⟩ := h
          subst h1
          subst h3
          exact ⟨Cache.allNotPrefetched_insert pol s k _ hs, rfl⟩

theorem prefetch_allNotPrefetched (pol : Policy K Int) (s : Cache.Container K Int)
    (k : K) (hs : Cache.allNotPrefetched s) :
    Cache.allNotPrefetched (prefetch pol s k).1 := by
  unfold prefetch
  cases hf : Cache.findEntry s k with
  | some e => exact hs
  | none =>
      simp only
      unfold insertPrefetch
      by_cases hfu : pol.full s k = true
      · simp only [hfu, if_true]
        exact Cache.allNotPrefetched_insertSorted _ k _
          (Cache.allNotPrefetched_purgeKey s _ hs) rfl
      · simp only [Bool.not_eq_true] at hfu
        simp only [hfu, Bool.false_eq_true, if_false]
        exact Cache.allNotPrefetched_insertSorted s k _ hs rfl

theorem step_allNotPrefetched (pol : Policy K Int) (s s1 : Cache.Container K Int)
    (hs : Step pol s s1) (hnp : Cache.allNotPrefetched s) :
    Cache.allNotPrefetched s1 := by
  cases hs with
  | access =>
      rename_i fuel k ev v h
      unfold access at h
      cases hg : get pol fuel s k with
      | none => rw [hg] at h; exact absurd h (by simp)
      | some g =>
          obtain ⟨sg, evg, eg⟩ := g
          rw [hg] at h
          simp only [Option.map_some', Option.some.injEq, Prod.mk.injEq] at h
          obtain ⟨h1, h2, h3⟩ := h
          subst h1
          exact (get_some_allNotPrefetched pol fuel s sg k evg eg hg hnp).1
  | dirty =>
      rename_i fuel k ev h
      unfold CacheAsync.dirty at h
      cases hg : get pol fuel s k with
      | none => rw [hg] at h; exact absurd h (by simp)
      | some g =>
          obtain ⟨sg, evg, eg⟩ := g
          rw [hg] at h
          simp only [Option.map_some', Option.some.injEq, Prod.mk.injEq] at h
          obtain ⟨h1, h2⟩ := h
          subst h1
          obtain ⟨hsg, hpf⟩ := get_some_allNotPrefetched pol fuel s sg k evg eg hg hnp
          exact Cache.allNotPrefetched_setEntry sg k _ hsg hpf
  | lock =>
      rename_i fuel k b ev h
      unfold CacheAsync.lock at h
      cases hg : get pol fuel s k with
      | none => rw [hg] at h; exact absurd h (by simp)
      | some g =>
          obtain ⟨sg, evg, eg⟩ := g
          rw [hg] at h
          simp only [Option.map_some', Option.some.injEq, Prod.mk.injEq] at h
          obtain ⟨h1, h2⟩ := h
          subst h1
          obtain ⟨hsg, hpf⟩ := get_some_allNotPrefetched pol fuel s sg k evg eg hg hnp
          exact Cache.allNotPrefetched_setEntry sg k _ hsg hpf
  | invalidate =>
      rename_i k h
      unfold Cache.invalidate at h
      cases hf : Cache.findEntry s k with
      | none =>
          rw [hf] at h
          simp only at h
          injection h with h
          subst h
          exact hnp
      | some e =>
          rw [hf] at h
          by_cases hd : e.dirty = true
          · simp [hd] at h
          · simp only [Bool.not_eq_true] at hd
            simp only [hd, Bool.false_eq_true, if_false] at h
            injection h with h
            subst h
            exact Cache.allNotPrefetched_eraseKey s k hnp
  | flushKey =>
      rename_i k
      exact Cache.allNotPrefetched_flushKey s k hnp
  | flushAll => exact Cache.allNotPrefetched_flushAll s hnp
  | purgeKey =>
      rename_i k
      exact Cache.allNotPrefetched_purgeKey s k hnp
  | clear =>
      rw [Cache.clear_fst]
      exact Cache.allNotPrefetched_nil
  | prefetch =>
      rename_i k
      exact prefetch_allNotPrefetched pol s k hnp

theorem reach_allNotPrefetched (pol : Policy K Int) (s : Cache.Container K Int)
    (hs : Reach pol s) : Cache.allNotPrefetched s := by
  induction hs with
  | init => exact Cache.allNotPrefetched_nil
  | step s s1 hr hstep ih => exact step_allNotPrefetched pol s s1 hstep ih

end CacheAsync

/-- C1: in every state reachable by the public operations of the
asynchronous build (access, dirty, lock, invalidate, flush, purge, clear,
prefetch), no entry has its dirty and its prefetched flag set at the same
time.  (In fact no reachable entry has the prefetched flag set at all:
the prefetch overload of `insert` matches its initializers against the
wrong member order, so the stand-in entry it creates is dirty rather than
prefetched.) -/
theorem C1_dirty_prefetched_never_both {K : Type} [LinearOrder K] [DecidableEq K]
    (pol : Policy K Int) (s : Cache.Container K Int) (hs : CacheAsync.Reach pol s)
    (k : K) (e : CacheEntry Int) (hf : Cache.findEntry s k = some e) :
    ¬(e.dirty = true ∧ e.prefetched = true) := by
  intro hcon
  have hnp := CacheAsync.reach_allNotPrefetched pol s hs
  have hpf := hnp (k, e) (Cache.findEntry_mem s k e hf)
  rw [hcon.2] at hpf
  exact absurd hpf (by simp)

/-- Witness for C1 at the reachable state produced by one prefetch. -/
theorem C1_witness :
    ¬((⟨0, false, true, false⟩ : CacheEntry Int).dirty = true
      ∧ (⟨0, false, true, false⟩ : CacheEntry Int).prefetched = true) :=
  C1_dirty_prefetched_never_both polW (CacheAsync.prefetch polW [] 0).1
    (CacheAsync.Reach.step [] _ CacheAsync.Reach.init (CacheAsync.Step.prefetch [] 0))
    0 ⟨0, false, true, false⟩ (by decide)

/-- C3: in the asynchronous build, `operator[]` does terminate on a miss
(first conjunct: one unit of fuel suffices and the value is loaded via
`read`), but on any hit — including the second access of the same key
with a total, well-behaved policy — `get` calls `synchronize`, which
calls `get` again on the unchanged state, and no amount of fuel makes it
return (second conjunct).  This contradicts the claim that access always
terminates and returns the entry's value. -/
theorem C3_access_hit_diverges :
    CacheAsync.get polW 1 [] 0
      = some ([(0, ⟨7, false, false, false⟩)], [Ev.read 0], ⟨7, false, false, false⟩)
  ∧ ∀ fuel : Nat,
      CacheAsync.get polW fuel [(0, (⟨7, false, false, false⟩ : CacheEntry Int))] 0 = none := by
  constructor
  · decide
  · intro fuel
    exact CacheAsync.get_hit_none polW _ 0 ⟨7, false, false, false⟩ (by decide) fuel

/-- C9: a direct access of the never-before-accessed key 5 returns the
policy value 12 (first conjunct); `prefetch 5` on the empty cache makes
one `readAsync` call but — because the initializers of the prefetch
`insert` overload are matched against the wrong member order — leaves a
resident stand-in entry with value 0 that is dirty and not in-flight
(second conjunct); the subsequent access of key 5 is then a hit and never
returns, for any fuel (third conjunct).  So prefetch-then-access is not
equivalent to a direct access. -/
theorem C9_prefetch_access_diverges :
    CacheAsync.access polW 1 [] 5
      = some ([(5, ⟨12, false, false, false⟩)], [Ev.read 5], 12)
  ∧ CacheAsync.prefetch polW [] 5 = ([(5, ⟨0, false, true, false⟩)], [Ev.readAsync 5])
  ∧ ∀ fuel : Nat,
      CacheAsync.access polW fuel [(5, (⟨0, false, true, false⟩ : CacheEntry Int))] 5 = none := by
  refine ⟨by decide, by decide, ?_⟩
  intro fuel
  unfold CacheAsync.access
  rw [CacheAsync.get_hit_none polW _ 5 ⟨0, false, true, false⟩ (by decide) fuel]
  rfl

/-!
The bounded aging cache: the linear scans (`Find`, the eviction scan) and
the slot operations.
-/

namespace SynchronousCache

variable {K H V : Type} [DecidableEq K] [Inhabited K] [Inhabited H] [Inhabited V]

theorem getAt_cons_succ (e : Entry K H V) (t : List (Entry K H V)) (i : Nat) :
    getAt (e :: t) (i + 1) = getAt t i := rfl

theorem getAt_cons_zero (e : Entry K H V) (t : List (Entry K H V)) :
    getAt (e :: t) 0 = e := rfl

theorem getAt_setAt_self (s : List (Entry K H V)) (i : Nat) (e : Entry K H V)
    (hi : i < s.length) : getAt (setAt s i e) i = e := by
  induction s generalizing i with
  | nil => simp at hi
  | cons e1 t ih =>
      cases i with
      | zero => simp [setAt, getAt_cons_zero]
      | succ i =>
          simp only [setAt, getAt_cons_succ]
          exact ih i (by simpa using hi)

theorem getAt_setAt_ne (s : List (Entry K H V)) (i j : Nat) (e : Entry K H V)
    (hj : j ≠ i) : getAt (setAt s i e) j = getAt s j := by
  induction s generalizing i j with
  | nil => simp [setAt]
  | cons e1 t ih =>
      cases i with
      | zero =>
          cases j with
          | zero => exact absurd rfl hj
          | succ j => simp [setAt, getAt_cons_succ]
      | succ i =>
          cases j with
          | zero => simp [setAt, getAt_cons_zero]
          | succ j =>
              simp only [setAt, getAt_cons_succ]
              exact ih i j (by omega)

theorem getAt_bump (s : List (Entry K H V)) (i : Nat) (hi : i < s.length) :
    getAt (bump s) i = { getAt s i with age := (getAt s i).age + 1 } := by
  induction s generalizing i with
  | nil => simp at hi
  | cons e1 t ih =>
      cases i with
      | zero => simp [bump, getAt_cons_zero]
      | succ i =>
          simp only [bump, List.map_cons, getAt_cons_succ]
          exact ih i (by simpa using hi)

theorem FindGo_some (t : List (Entry K H V)) (k : K) :
    ∀ (i j : Nat), FindGo i t k = some j →
      ∃ m, m < t.length ∧ j = i + m ∧ (getAt t m).key = k
        ∧ ∀ l, l < m → (getAt t l).key ≠ k := by
  induction t with
  | nil =>
      intro i j h
      simp [FindGo] at h
  | cons e t ih =>
      intro i j h
      by_cases hk : e.key = k
      · simp only [FindGo, hk, if_true, Option.some.injEq] at h
        subst h
        exact ⟨0, by simp, by omega, by simpa [getAt_cons_zero] using hk, by omega⟩
      · simp only [FindGo, hk, if_false] at h
        obtain ⟨m, hm, hj, hkey, hfirst⟩ := ih (i + 1) j h
        refine ⟨m + 1, by simpa using hm, by omega, by simpa [getAt_cons_succ] using hkey, ?_⟩
        intro l hl
        cases l with
        | zero => simpa [getAt_cons_zero] using hk
        | succ l =>
            rw [getAt_cons_succ]
            exact hfirst l (by omega)

theorem FindGo_eq (t : List (Entry K H V)) (k : K) :
    ∀ (i m : Nat), m < t.length → (getAt t m).key = k →
      (∀ l, l < m → (getAt t l).key ≠ k) → FindGo i t k = some (i + m) := by
  induction t with
  | nil =>
      intro i m hm
      simp at hm
  | cons e t ih =>
      intro i m hm hkey hfirst
      cases m with
      | zero =>
          rw [getAt_cons_zero] at hkey
          simp [FindGo, hkey]
      | succ m =>
          have hne : e.key ≠ k := by
            have := hfirst 0 (by omega)
            simpa [getAt_cons_zero] using this
          simp only [FindGo, hne, if_false]
          have := ih (i + 1) m (by simpa using hm) (by simpa [getAt_cons_succ] using hkey)
            (fun l hl => by
              have := hfirst (l + 1) (by omega)
              simpa [getAt_cons_succ] using this)
          rw [this]
          congr 1
          omega

theorem Find_some (s : List (Entry K H V)) (k : K) (i : Nat)
    (h : Find s k = some i) :
    i < s.length ∧ (getAt s i).key = k ∧ ∀ l, l < i → (getAt s l).key ≠ k := by
  obtain ⟨m, hm, hi, hkey, hfirst⟩ := FindGo_some s k 0 i h
  have : i = m := by omega
  subst this
  exact ⟨hm, hkey, hfirst⟩

theorem Find_eq (s : List (Entry K H V)) (k : K) (i : Nat)
    (hi : i < s.length) (hkey : (getAt s i).key = k)
    (hfirst : ∀ l, l < i → (getAt s l).key ≠ k) : Find s k = some i := by
  have := FindGo_eq s k 0 i hi hkey hfirst
  simpa [Find] using this

theorem oldestGo_spec (t : List (Entry K H V)) :
    ∀ (bAge : Int) (best i : Nat),
      (oldestGo bAge best i t = best ∧ ∀ j, j < t.length → (getAt t j).age ≤ bAge)
    ∨ (∃ j, j < t.length ∧ oldestGo bAge best i t = i + j
        ∧ bAge < (getAt t j).age
        ∧ (∀ l, l < t.length → (getAt t l).age ≤ (getAt t j).age)
        ∧ ∀ l, l < j → (getAt t l).age < (getAt t j).age) := by
  induction t with
  | nil =>
      intro bAge best i
      left
      constructor
      · rfl
      · intro j hj
        simp at hj
  | cons e t ih =>
      intro bAge best i
      by_cases he : bAge < e.age
      · rcases ih e.age i (i + 1) with ⟨h1, h2⟩ | ⟨j, hj, h1, h2, h3, h4⟩
        · right
          refine ⟨0, by simp, ?_, by simpa [getAt_cons_zero] using he, ?_, ?_⟩
          · simp only [oldestGo, he, if_true]
            rw [h1]
            omega
          · intro l hl
            rw [getAt_cons_zero]
            cases l with
            | zero => rw [getAt_cons_zero]
            | succ l =>
                rw [getAt_cons_succ]
                exact h2 l (by simpa using hl)
          · intro l hl
            omega
        · right
          refine ⟨j + 1, by simpa using hj, ?_, ?_, ?_, ?_⟩
          · simp only [oldestGo, he, if_true]
            rw [h1]
            omega
          · rw [getAt_cons_succ]
            omega
          · intro l hl
            rw [getAt_cons_succ]
            cases l with
            | zero =>
                rw [getAt_cons_zero]
                omega
            | succ l =>
                rw [getAt_cons_succ]
                exact h3 l (by simpa using hl)
          · intro l hl
            rw [getAt_cons_succ]
            cases l with
            | zero =>
                rw [getAt_cons_zero]
                exact h2
            | succ l =>
                rw [getAt_cons_succ]
                exact h4 l (by omega)
      · have hle : e.age ≤ bAge := Int.not_lt.mp he
        rcases ih bAge best (i + 1) with ⟨h1, h2⟩ | ⟨j, hj, h1, h2, h3, h4⟩
        · left
          constructor
          · simp only [oldestGo, he, if_false]
            exact h1
          · intro l hl
            cases l with
            | zero => simpa [getAt_cons_zero] using hle
            | succ l =>
                rw [getAt_cons_succ]
                exact h2 l (by simpa using hl)
        · right
          refine ⟨j + 1, by simpa using hj, ?_, ?_, ?_, ?_⟩
          · simp only [oldestGo, he, if_false]
            rw [h1]
            omega
          · rw [getAt_cons_succ]
            omega
          · intro l hl
            rw [getAt_cons_succ]
            cases l with
            | zero =>
                rw [getAt_cons_zero]
                omega
            | succ l =>
                rw [getAt_cons_succ]
                exact h3 l (by simpa using hl)
          · intro l hl
            rw [getAt_cons_succ]
            cases l with
            | zero =>
                rw [getAt_cons_zero]
                omega
            | succ l =>
                rw [getAt_cons_succ]
                exact h4 l (by omega)

theorem oldestIdx_spec (s : List (Entry K H V)) (hs : s ≠ []) :
    oldestIdx s < s.length
  ∧ (∀ l, l < s.length → (getAt s l).age ≤ (getAt s (oldestIdx s)).age)
  ∧ ∀ l, l < oldestIdx s → (getAt s l).age < (getAt s (oldestIdx s)).age := by
  cases s with
  | nil => exact absurd rfl hs
  | cons e t =>
      rcases oldestGo_spec t e.age 0 1 with ⟨h1, h2⟩ | ⟨j, hj, h1, h2, h3, h4⟩
      · have hidx : oldestIdx (e :: t) = 0 := by
          show oldestGo e.age 0 1 t = 0
          rw [h1]
        refine ⟨by rw [hidx]; simp, ?_, ?_⟩
        · intro l hl
          rw [hidx, getAt_cons_zero]
          cases l with
          | zero => rw [getAt_cons_zero]
          | succ l =>
              rw [getAt_cons_succ]
              exact h2 l (by simpa using hl)
        · intro l hl
          rw [hidx] at hl
          omega
      · have hidx : oldestIdx (e :: t) = j + 1 := by
          show oldestGo e.age 0 1 t = j + 1
          rw [h1]
          omega
        refine ⟨by rw [hidx]; simpa using hj, ?_, ?_⟩
        · intro l hl
          rw [hidx, getAt_cons_succ]
          cases l with
          | zero =>
              rw [getAt_cons_zero]
              omega
          | succ l =>
              rw [getAt_cons_succ]
              exact h3 l (by simpa using hl)
        · intro l hl
          rw [hidx] at hl
          rw [hidx, getAt_cons_succ]
          cases l with
          | zero =>
              rw [getAt_cons_zero]
              omega
          | succ l =>
              rw [getAt_cons_succ]
              exact h4 l (by omega)

end SynchronousCache

namespace SynchronousCache

variable {K H V : Type} [DecidableEq K] [Inhabited K] [Inhabited H] [Inhabited V]

/-- C7: `operator()` of the bounded aging cache behaves as specified.
(1) It first increments every resident slot's age by 1.  (2) If the key
is resident, the matching slot is the first one in scan order; its age is
reset to 0 and its value returned, with no store call.  (3) If the key is
absent and the table is below capacity 8, the value is fetched into a
fresh slot of age 0 appended at the end.  (4) If the key is absent at
capacity, the victim is the first slot of maximum age (ties broken by
scan order); its prior handle/value are flushed, and it is overwritten
with the new key, fetched handle and value, age 0. -/
theorem C7_bounded_access_spec (pol : Policy K H V) (s : List (Entry K H V)) (k : K) :
    ((bump s).length = s.length
      ∧ ∀ i, i < s.length →
          getAt (bump s) i = { getAt s i with age := (getAt s i).age + 1 })
  ∧ (∀ i, Find (bump s) k = some i →
      i < s.length
      ∧ (getAt (bump s) i).key = k
      ∧ (∀ l, l < i → (getAt (bump s) l).key ≠ k)
      ∧ access pol s k
          = (setAt (bump s) i { getAt (bump s) i with age := 0 },
             [], (getAt (bump s) i).value))
  ∧ (Find (bump s) k = none → s.length < 8 →
      access pol s k
        = (bump s ++ [⟨k, 0, (pol.Fetch k).1, (pol.Fetch k).2⟩], [], (pol.Fetch k).2))
  ∧ (Find (bump s) k = none → ¬ s.length < 8 →
      oldestIdx (bump s) < s.length
      ∧ (∀ l, l < s.length →
          (getAt (bump s) l).age ≤ (getAt (bump s) (oldestIdx (bump s))).age)
      ∧ (∀ l, l < oldestIdx (bump s) →
          (getAt (bump s) l).age < (getAt (bump s) (oldestIdx (bump s))).age)
      ∧ access pol s k
          = (setAt (bump s) (oldestIdx (bump s)) ⟨k, 0, (pol.Fetch k).1, (pol.Fetch k).2⟩,
             [Ev.Flush (getAt (bump s) (oldestIdx (bump s))).handle
                (getAt (bump s) (oldestIdx (bump s))).value],
             (pol.Fetch k).2)) := by
  refine ⟨⟨length_bump s, fun i hi => getAt_bump s i hi⟩, ?_, ?_, ?_⟩
  · intro i hfind
    obtain ⟨hi, hkey, hfirst⟩ := Find_some (bump s) k i hfind
    rw [length_bump] at hi
    refine ⟨hi, hkey, hfirst, ?_⟩
    simp [access, hfind]
  · intro hfind hlt
    have hcond : (bump s).length < NUMBER_OF_ENTRIES := by
      rw [length_bump]
      simpa [NUMBER_OF_ENTRIES] using hlt
    simp [access, hfind, hcond]
  · intro hfind hge
    have hne : bump s ≠ [] := by
      intro h
      have := length_bump s
      rw [h] at this
      simp at this
      omega
    obtain ⟨h1, h2, h3⟩ := oldestIdx_spec (bump s) hne
    rw [length_bump] at h1
    have hcond : ¬ (bump s).length < NUMBER_OF_ENTRIES := by
      rw [length_bump]
      simpa [NUMBER_OF_ENTRIES] using hge
    refine ⟨h1, ?_, h3, ?_⟩
    · intro l hl
      exact h2 l (by rw [length_bump]; exact hl)
    · simp [access, hfind, hcond]

end SynchronousCache

/-- Witness for C7 at a concrete below-capacity miss. -/
theorem C7_witness :
    SynchronousCache.access bpolW [] 0
      = (SynchronousCache.bump [] ++ [⟨0, 0, (bpolW.Fetch 0).1, (bpolW.Fetch 0).2⟩],
         [], (bpolW.Fetch 0).2) :=
  (SynchronousCache.C7_bounded_access_spec bpolW [] 0).2.2.1 rfl (by simp)

/-- C8 counterexample: fill the cache with keys 0..7, `Lock(3)`, then
access key 3 itself (a hit, which resets the locked slot's age to 0 and
thereby removes the lock bias), then access the other seven keys once
each.  Now every slot age is nonnegative, all eight keys — seven of them
never locked — are resident, and the next miss (key 8) at capacity
selects the slot holding the locked key 3 as the maximum-age victim and
evicts it, while the unlocked key 0 stays resident.  This refutes the
claim that after `Lock(key)` no subsequent miss at capacity ever evicts
that slot while an unlocked slot is resident. -/
theorem C8_counterexample :
    (SynchronousCache.Find
        (SynchronousCache.runAccess bpolW [3, 0, 1, 2, 4, 5, 6, 7]
          (SynchronousCache.Lock
            (SynchronousCache.runAccess bpolW [0, 1, 2, 3, 4, 5, 6, 7] []) 3)) 3
      = some 3)
  ∧ (SynchronousCache.runAccess bpolW [3, 0, 1, 2, 4, 5, 6, 7]
      (SynchronousCache.Lock
        (SynchronousCache.runAccess bpolW [0, 1, 2, 3, 4, 5, 6, 7] []) 3)).length = 8
  ∧ ((SynchronousCache.runAccess bpolW [3, 0, 1, 2, 4, 5, 6, 7]
      (SynchronousCache.Lock
        (SynchronousCache.runAccess bpolW [0, 1, 2, 3, 4, 5, 6, 7] []) 3)).all
        fun e => decide (0 ≤ e.age)) = true
  ∧ SynchronousCache.Find
      (SynchronousCache.access bpolW
        (SynchronousCache.runAccess bpolW [3, 0, 1, 2, 4, 5, 6, 7]
          (SynchronousCache.Lock
            (SynchronousCache.runAccess bpolW [0, 1, 2, 3, 4, 5, 6, 7] []) 3)) 8).1 3
      = none
  ∧ (SynchronousCache.Find
      (SynchronousCache.access bpolW
        (SynchronousCache.runAccess bpolW [3, 0, 1, 2, 4, 5, 6, 7]
          (SynchronousCache.Lock
            (SynchronousCache.runAccess bpolW [0, 1, 2, 3, 4, 5, 6, 7] []) 3)) 8).1 0
      = some 0) := by
  decide

namespace SynchronousCache

variable {K H V : Type} [DecidableEq K] [Inhabited K] [Inhabited H] [Inhabited V]

/-- Models `Lock`'s `age += 0x80000000` on a nonnegative in-range age lands on
`age - 2^31`. -/
theorem toInt32_lock (a : Int) (h0 : 0 ≤ a) (h1 : a ≤ 2 ^ 31) :
    toInt32 (a + 2 ^ 31) = a - 2 ^ 31 := by
  unfold toInt32
  omega

/-- One access with a key different from `k` in a full cache whose slot
`i` holds `k` with a strictly negative post-bump age, while every other
slot has a nonnegative age and a key other than `k`: the access never
selects slot `i` as the eviction victim, so slot `i` keeps its key and
value and merely ages by one; the other slots keep nonnegative ages and
keys other than `k`. -/
theorem access_keeps_locked (pol : Policy K H V) (t : List (Entry K H V))
    (i : Nat) (k kx : K)
    (hlen : t.length = 8) (hi : i < 8)
    (hkey : (getAt t i).key = k)
    (hothers : ∀ j, j < 8 → j ≠ i → (getAt t j).key ≠ k ∧ 0 ≤ (getAt t j).age)
    (hneg : (getAt t i).age + 1 ≤ 0)
    (hkx : kx ≠ k) :
    (access pol t kx).1.length = 8
  ∧ getAt (access pol t kx).1 i = { getAt t i with age := (getAt t i).age + 1 }
  ∧ ∀ j, j < 8 → j ≠ i →
      (getAt (access pol t kx).1 j).key ≠ k ∧ 0 ≤ (getAt (access pol t kx).1 j).age := by
  have hlen1 : (bump t).length = 8 := by rw [length_bump, hlen]
  have hbi : getAt (bump t) i = { getAt t i with age := (getAt t i).age + 1 } :=
    getAt_bump t i (by omega)
  have hbother : ∀ j, j < 8 → j ≠ i →
      (getAt (bump t) j).key ≠ k ∧ 1 ≤ (getAt (bump t) j).age := by
    intro j hj hji
    have hb := getAt_bump t j (by omega)
    obtain ⟨h1, h2⟩ := hothers j hj hji
    rw [hb]
    refine ⟨?_, ?_⟩
    · show (getAt t j).key ≠ k
      exact h1
    · show 1 ≤ (getAt t j).age + 1
      omega
  cases hfind : Find (bump t) kx with
  | some j =>
      obtain ⟨hj, hjkey, hjfirst⟩ := Find_some (bump t) kx j hfind
      rw [hlen1] at hj
      have hji : j ≠ i := by
        intro h
        rw [h, hbi] at hjkey
        simp only at hjkey
        exact hkx (by rw [← hjkey, hkey])
      simp only [access, hfind]
      refine ⟨by rw [length_setAt, hlen1], ?_, ?_⟩
      · rw [getAt_setAt_ne (bump t) j i _ (by omega), hbi]
      · intro j2 hj2 hj2i
        by_cases hjj : j2 = j
        · subst hjj
          rw [getAt_setAt_self (bump t) j2 _ (by omega)]
          constructor
          · simp only
            rw [hjkey]
            exact hkx
          · simp only
            omega
        · rw [getAt_setAt_ne (bump t) j j2 _ (by omega)]
          obtain ⟨h1, h2⟩ := hbother j2 hj2 hj2i
          exact ⟨h1, by omega⟩
  | none =>
      have hcond : ¬ (bump t).length < NUMBER_OF_ENTRIES := by
        rw [hlen1]
        simp [NUMBER_OF_ENTRIES]
      have hne : bump t ≠ [] := by
        intro h
        rw [h] at hlen1
        simp at hlen1
      obtain ⟨hjlt, hmax, _⟩ := oldestIdx_spec (bump t) hne
      rw [hlen1] at hjlt
      have hji : oldestIdx (bump t) ≠ i := by
        intro h
        have hl0 : ∃ l0, l0 < 8 ∧ l0 ≠ i := by
          by_cases hi0 : i = 0
          · exact ⟨1, by omega, by omega⟩
          · exact ⟨0, by omega, by omega⟩
        obtain ⟨l0, hl0lt, hl0i⟩ := hl0
        have h1 := (hbother l0 hl0lt hl0i).2
        have h2 := hmax l0 (by omega)
        rw [h, hbi] at h2
        simp only at h2
        omega
      simp only [access, hfind, hcond, if_false]
      refine ⟨by rw [length_setAt, hlen1], ?_, ?_⟩
      · rw [getAt_setAt_ne (bump t) _ i _ (by omega), hbi]
      · intro j2 hj2 hj2i
        by_cases hjj : j2 = oldestIdx (bump t)
        · rw [hjj, getAt_setAt_self (bump t) _ _ (by omega)]
          exact ⟨hkx, by simp⟩
        · rw [getAt_setAt_ne (bump t) _ j2 _ (by omega)]
          obtain ⟨h1, h2⟩ := hbother j2 hj2 hj2i
          exact ⟨h1, by omega⟩

theorem run_keeps (pol : Policy K H V) (ks : List K) :
    ∀ (t : List (Entry K H V)) (i : Nat) (k : K),
      t.length = 8 → i < 8 → (getAt t i).key = k →
      (∀ j, j < 8 → j ≠ i → (getAt t j).key ≠ k ∧ 0 ≤ (getAt t j).age) →
      (getAt t i).age + (ks.length : Int) ≤ 0 →
      (∀ x ∈ ks, x ≠ k) →
      (runAccess pol ks t).length = 8
      ∧ (getAt (runAccess pol ks t) i).key = k
      ∧ (getAt (runAccess pol ks t) i).value = (getAt t i).value := by
  induction ks with
  | nil =>
      intro t i k hlen hi hkey hothers hneg havoid
      exact ⟨hlen, hkey, rfl⟩
  | cons kx ks ih =>
      intro t i k hlen hi hkey hothers hneg havoid
      have hkx : kx ≠ k := havoid kx (by simp)
      obtain ⟨hlen2, hslot, hoth2⟩ := access_keeps_locked pol t i k kx hlen hi hkey hothers
        (by simp only [List.length_cons] at hneg; push_cast at hneg; omega) hkx
      have hrun : runAccess pol (kx :: ks) t = runAccess pol ks (access pol t kx).1 := rfl
      rw [hrun]
      have hres := ih (access pol t kx).1 i k hlen2 hi
        (by rw [hslot]; exact hkey) hoth2
        (by
          rw [hslot]
          show (getAt t i).age + 1 + (ks.length : Int) ≤ 0
          simp only [List.length_cons] at hneg
          push_cast at hneg
          omega)
        (fun x hx => havoid x (by simp [hx]))
      refine ⟨hres.1, hres.2.1, ?_⟩
      rw [hres.2.2, hslot]

/-- C8 (amended): after `Lock(key)` on a resident slot of the full cache
— the key resident in exactly one slot, all slot ages nonnegative — any
subsequent sequence of accesses that never requests the locked key
itself, of length at most `2^31` minus the slot's pre-lock age, never
selects that slot for eviction: the locked key remains resident in the
same slot with its value unchanged.  (The two restrictions are forced:
an access of the locked key resets its age to 0 and removes the bias —
the counterexample — and after about `2^31` further accesses the biased
age wraps back into nonnegative territory.) -/
theorem C8_locked_slot_not_evicted (pol : Policy K H V) (s : List (Entry K H V))
    (i : Nat) (k : K) (ks : List K)
    (hlen : s.length = 8) (hi : i < 8)
    (hkey : (getAt s i).key = k)
    (huniq : ∀ j, j < 8 → j ≠ i → (getAt s j).key ≠ k)
    (hages : ∀ j, j < 8 → 0 ≤ (getAt s j).age)
    (havoid : ∀ x ∈ ks, x ≠ k)
    (hbound : (getAt s i).age + (ks.length : Int) ≤ 2 ^ 31) :
    (runAccess pol ks (Lock s k)).length = 8
  ∧ (getAt (runAccess pol ks (Lock s k)) i).key = k
  ∧ (getAt (runAccess pol ks (Lock s k)) i).value = (getAt s i).value := by
  have ha0 : 0 ≤ (getAt s i).age := hages i hi
  have ha1 : (getAt s i).age ≤ 2 ^ 31 := by omega
  have hfind : Find s k = some i := Find_eq s k i (by omega) hkey
    (fun l hl => huniq l (by omega) (by omega))
  have hlock : Lock s k = setAt s i { getAt s i with age := (getAt s i).age - 2 ^ 31 } := by
    simp only [Lock, hfind]
    rw [toInt32_lock _ ha0 ha1]
  have hli : getAt (Lock s k) i = { getAt s i with age := (getAt s i).age - 2 ^ 31 } := by
    rw [hlock]
    exact getAt_setAt_self s i _ (by omega)
  have hlo : ∀ j, j < 8 → j ≠ i →
      (getAt (Lock s k) j).key ≠ k ∧ 0 ≤ (getAt (Lock s k) j).age := by
    intro j hj hji
    rw [hlock, getAt_setAt_ne s i j _ hji]
    exact ⟨huniq j hj hji, hages j hj⟩
  have hlen2 : (Lock s k).length = 8 := by rw [hlock, length_setAt, hlen]
  have h := run_keeps pol ks (Lock s k) i k hlen2 hi
    (by rw [hli]; exact hkey) hlo
    (by
      rw [hli]
      show (getAt s i).age - 2 ^ 31 + (ks.length : Int) ≤ 0
      omega)
    havoid
  refine ⟨h.1, h.2.1, ?_⟩
  rw [h.2.2, hli]

end SynchronousCache

/-- Witness for the amended C8: fill with keys 0..7, lock key 0 (the
slot of maximum age), then insert key 8; the locked key 0 is still
resident with its value unchanged. -/
theorem C8_witness :
    (SynchronousCache.runAccess bpolW [8]
        (SynchronousCache.Lock
          (SynchronousCache.runAccess bpolW [0, 1, 2, 3, 4, 5, 6, 7] []) 0)).length = 8
  ∧ (SynchronousCache.getAt (SynchronousCache.runAccess bpolW [8]
        (SynchronousCache.Lock
          (SynchronousCache.runAccess bpolW [0, 1, 2, 3, 4, 5, 6, 7] []) 0)) 0).key = 0
  ∧ (SynchronousCache.getAt (SynchronousCache.runAccess bpolW [8]
        (SynchronousCache.Lock
          (SynchronousCache.runAccess bpolW [0, 1, 2, 3, 4, 5, 6, 7] []) 0)) 0).value
      = (SynchronousCache.getAt
          (SynchronousCache.runAccess bpolW [0, 1, 2, 3, 4, 5, 6, 7] []) 0).value :=
  SynchronousCache.C8_locked_slot_not_evicted bpolW
    (SynchronousCache.runAccess bpolW [0, 1, 2, 3, 4, 5, 6, 7] []) 0 0 [8]
    (by decide) (by decide) (by decide) (by decide) (by decide) (by decide) (by decide)
